import Mathlib

/-!
Verification of the lightwood encoder / accuracy-evaluator core.

Shallow embedding of:
- `docssrc/source/tutorials/custom_encoder_rulebased/LabelEncoder.py` (LabelEncoder),
- `lightwood/encoder/audio/mfcc.py` (MFCCEncoder),
- `lightwood/helpers/general.py` (evaluate_accuracy and its per-dtype scorers).

Conventions: Python `float` is modelled by `ℚ`; a raised exception is `none`
of an `Option` result; external library calls (sklearn metrics, librosa and
the file reader) are fields of explicit environment structures, since they
live outside this repository.
-/

namespace Lightwood

/-- A Python `dict` in insertion order, as an association list.
`dictInsert d k v` models `d[k] = v`: it replaces the value of an existing
key in place (keeping its position, as CPython dicts do) or appends a fresh
binding at the end. -/
def dictInsert {κ α : Type} [DecidableEq κ] : List (κ × α) → κ → α → List (κ × α)
  | [], k, v => [(k, v)]
  | p :: d, k, v => if p.1 = k then (k, v) :: d else p :: dictInsert d k v

/-- `d[k]` as an `Option`: `none` models a `KeyError` / absent key. -/
def dictGet? {κ α : Type} [DecidableEq κ] : List (κ × α) → κ → Option α
  | [], _ => none
  | p :: d, k => if p.1 = k then some p.2 else dictGet? d k

/-- `d.get(k, v₀)`. -/
def dictGetD {κ α : Type} [DecidableEq κ] (d : List (κ × α)) (k : κ) (v₀ : α) : α :=
  (dictGet? d k).getD v₀

/-- The keys of the dict, in insertion order. -/
def dictKeys {κ α : Type} (d : List (κ × α)) : List κ :=
  d.map Prod.fst

/-- A sequence of insertions, as performed by a dict comprehension or by
`dict.update` iterating over `ps` in order. -/
def dictInsertMany {κ α : Type} [DecidableEq κ] (d : List (κ × α)) (ps : List (κ × α)) : List (κ × α) :=
  ps.foldl (fun acc p => dictInsert acc p.1 p.2) d

/-- Python `enumerate` starting at `n`. -/
def pyEnumerate {α : Type} : Nat → List α → List (Nat × α)
  | _, [] => []
  | n, x :: xs => (n, x) :: pyEnumerate (n + 1) xs

/-- A Python list comprehension `[f(x) for x in l]` where `f` may raise:
the first failure aborts the whole comprehension. -/
def pyTraverse {α β : Type} (f : α → Option β) : List α → Option (List β)
  | [] => some []
  | x :: xs => (f x).bind fun y => (pyTraverse f xs).map fun ys => y :: ys

/-- Helper for `uniqueFirstSeen`: keep each value the first time it is
met, tracking the already-seen values in an accumulator. -/
def uniqueSeen : List String → List String → List String
  | [], _ => []
  | x :: xs, seen => if x ∈ seen then uniqueSeen xs seen else x :: uniqueSeen xs (x :: seen)

/-- `pandas.Series.unique`: distinct values in order of first appearance. -/
def uniqueFirstSeen (l : List String) : List String :=
  uniqueSeen l []

/-- The pairs inserted by `{cat: idx + 1 for idx, cat in enumerate(categories)}`
in `LabelEncoder.prepare`. -/
def labelPairs (categories : List String) : List (String × Nat) :=
  (pyEnumerate 0 categories).map fun p => (p.2, p.1 + 1)

/-- `LabelEncoder.prepare`'s `label_dict`: start from `{"Unknown": 0}` and
`update` with one binding `cat ↦ idx + 1` per distinct category. -/
def labelDict (priming_data : List String) : List (String × Nat) :=
  dictInsertMany [("Unknown", 0)] (labelPairs (uniqueFirstSeen priming_data))

/-- `LabelEncoder.prepare`'s `ilabel_dict`:
`{idx: cat for cat, idx in label_dict.items()}`. -/
def ilabelDict (priming_data : List String) : List (Nat × String) :=
  dictInsertMany [] ((labelDict priming_data).map fun p => (p.2, p.1))

/-- The attribute state of a `LabelEncoder` instance. The two dictionaries
are `Option`s because before `prepare` the attributes do not exist
(`__init__` never sets them); touching them then raises `AttributeError`. -/
structure LabelEncoder where
  is_target : Bool
  is_prepared : Bool
  output_size : Nat
  label_dict : Option (List (String × Nat))
  ilabel_dict : Option (List (Nat × String))
deriving DecidableEq

/-- `LabelEncoder.__init__`. -/
def LabelEncoder.init (is_target : Bool) : LabelEncoder :=
  { is_target := is_target
    is_prepared := false
    output_size := 1
    label_dict := none
    ilabel_dict := none }

/-- `LabelEncoder.prepare`. -/
def LabelEncoder.prepare (st : LabelEncoder) (priming_data : List String) : LabelEncoder :=
  { st with
    label_dict := some (labelDict priming_data)
    ilabel_dict := some (ilabelDict priming_data)
    is_prepared := true }

/-- `LabelEncoder.encode`: per element, `self.label_dict.get(x, 0)`; the
attribute access fails when `label_dict` was never set.  The result models
the `(rows, 1)` tensor produced by `.unsqueeze(1)`, one singleton row per
input element. -/
def LabelEncoder.encode (st : LabelEncoder) (column_data : List String) : Option (List (List Nat)) :=
  pyTraverse (fun x => st.label_dict.map fun d => [dictGetD d x 0]) column_data

/-- `LabelEncoder.decode`: per tensor row, `self.ilabel_dict[i.item()]`.
`.item()` needs exactly one element in the row, and the dictionary lookup
raises `KeyError` (`none`) on an unmapped index. -/
def LabelEncoder.decode (st : LabelEncoder) (encoded_data : List (List Nat)) : Option (List String) :=
  pyTraverse
    (fun row =>
      match st.ilabel_dict, row with
      | some d, [i] => dictGet? d i
      | _, _ => none)
    encoded_data

/-- `encode` in state-passing form: the method body assigns no attribute,
so the state component it returns is the input state. -/
def LabelEncoder.encodeS (st : LabelEncoder) (column_data : List String) :
    LabelEncoder × Option (List (List Nat)) :=
  (st, LabelEncoder.encode st column_data)

/-- `decode` in state-passing form; the method body assigns no attribute. -/
def LabelEncoder.decodeS (st : LabelEncoder) (encoded_data : List (List Nat)) :
    LabelEncoder × Option (List String) :=
  (st, LabelEncoder.decode st encoded_data)

/-- External collaborators of the audio encoder: `read_from_path_or_url`
composed with `librosa.load` (`none` models any raised read or decoding
error), and `librosa.feature.mfcc y n_mfcc hop_length` followed by
`.reshape(-1)`-compatible 2D output. -/
structure AudioEnv where
  readAudio : String → Option (List ℚ)
  mfcc : List ℚ → Nat → Nat → List (List ℚ)

/-- The attribute state of an `MFCCEncoder`: `output_size` does not exist
before `prepare` establishes it. -/
structure MFCCEncoder where
  is_prepared : Bool
  output_size : Option Nat
deriving DecidableEq

/-- A fresh `MFCCEncoder` (its `__init__` sets neither field to a value;
`is_prepared` is false from the base class). -/
def MFCCEncoder.init : MFCCEncoder :=
  { is_prepared := false, output_size := none }

/-- The successful per-file body of `MFCCEncoder.encode`:
`hop_length = int(num_samples / NUM_TIME_BUCKETS + 1)` with
`NUM_TIME_BUCKETS = 100`, then `librosa.feature.mfcc(y, n_mfcc=20,
hop_length=hop_length).reshape(-1)`. -/
def MFCCEncoder.encodeRow (env : AudioEnv) (y : List ℚ) : List ℚ :=
  (env.mfcc y 20 (y.length / 100 + 1)).flatten

/-- The final `torch.Tensor(encoded_audio_arr)` call of
`MFCCEncoder.encode`: building a 2D tensor from the accumulated per-row
lists raises `ValueError` (`none`) unless every row has the same width. -/
def torchTensor2D (rows : List (List ℚ)) : Option (List (List ℚ)) :=
  match rows with
  | [] => some []
  | r :: rs => if rs.all fun s => decide (s.length = r.length) then some (r :: rs) else none

/-- `MFCCEncoder.encode`: each path is read inside a `try`; on failure the
row `[0] * self.output_size` is appended instead (raising `AttributeError`,
hence `none`, if `output_size` was never established).  The accumulated
rows are finally converted by `torch.Tensor(encoded_audio_arr)`, which
raises when the rows have unequal widths. -/
def MFCCEncoder.encode (env : AudioEnv) (st : MFCCEncoder) (column_data : List String) :
    Option (List (List ℚ)) :=
  (pyTraverse
    (fun path =>
      match env.readAudio path with
      | some y => some (MFCCEncoder.encodeRow env y)
      | none => st.output_size.map fun sz => List.replicate sz (0 : ℚ))
    column_data).bind torchTensor2D

/-- `MFCCEncoder.prepare`: set `is_prepared`, encode the first priming
element as a probe, and record its length as `output_size`.  `none` models
the exceptions on empty priming data or a failing probe. -/
def MFCCEncoder.prepare (env : AudioEnv) (st : MFCCEncoder) (priming_data : List String) :
    Option MFCCEncoder :=
  match priming_data with
  | [] => none
  | p :: _ =>
    (MFCCEncoder.encode env { st with is_prepared := true } [p]).bind fun rows =>
      rows.head?.map fun ele => { st with is_prepared := true, output_size := some ele.length }

/-- A Python value as it flows through the accuracy evaluator: a number, a
class label, or a (possibly nested) list. -/
inductive PyVal : Type where
  | num (q : ℚ)
  | str (s : String)
  | arr (l : List PyVal)

/-- Coercion of a ground-truth cell to a number, as `np.array` + numeric
comparison requires; anything non-numeric raises. -/
def PyVal.asNum : PyVal → Option ℚ
  | PyVal.num q => some q
  | _ => none

/-- `x[0]` on a prediction row: first element of a sequence row; an empty
or non-sequence row raises. -/
def pyFirst : PyVal → Option PyVal
  | PyVal.arr (h :: _) => some h
  | _ => none

/-- `[x[0] for x in predictions]`. -/
def firstElems (preds : List PyVal) : Option (List PyVal) :=
  pyTraverse pyFirst preds

/-- The semantic-type taxonomy branched on by `evaluate_accuracy`;
`generic` stands for every dtype that reaches the `else` branch. -/
inductive dtype : Type where
  | integer
  | float
  | categorical
  | tags
  | array
  | generic
deriving DecidableEq

/-- The sklearn metric functions used by the scorers, as opaque external
functions of (y_true, y_pred). -/
structure MetricsEnv where
  r2_score : PyVal → PyVal → ℚ
  balanced_accuracy_score : PyVal → PyVal → ℚ
  f1_score_weighted : PyVal → PyVal → ℚ
  accuracy_score : PyVal → PyVal → ℚ

/-- The opaque backend handle used by the multilabel path:
`backend.predictor._mixer.encoders[column].encode`. -/
structure Backend where
  encoderEncode : List PyVal → PyVal

/-- Target metadata. `typing` is doubly optional: the outer `Option` is
whether the `typing` attribute exists on the object at all (the source has
a TODO noting it may not), the inner one whether the `data_type_dist` key
is present in the mapping. -/
structure TargetInfo where
  data_dtype : dtype
  typing : Option (Option (List dtype))

/-- The predictions dataframe: its `predictions` column and, when present,
the `{column}_confidence_range` column of per-row `[lower, upper]` pairs. -/
structure PredFrame where
  predictions : List PyVal
  confidence_range : Option (List (ℚ × ℚ))

/-- `evaluate_regression_accuracy`: with a confidence-range column, the
fraction `sum(within) / len(within)` of truths inside their row's
`[lower, upper]`; otherwise `max(r2_score(truths, predictions), 0)`. -/
def evaluate_regression_accuracy (env : MetricsEnv) (pf : PredFrame) (true_values : List PyVal) :
    Option ℚ :=
  match pf.confidence_range with
  | some ranges =>
    (pyTraverse PyVal.asNum true_values).bind fun Y =>
      if Y.length = ranges.length then
        if ranges.length = 0 then none
        else
          some (((Y.zip ranges).countP fun yr => decide (yr.2.1 ≤ yr.1 ∧ yr.1 ≤ yr.2.2) : ℚ) /
            (ranges.length : ℚ))
      else none
  | none => some (max (env.r2_score (PyVal.arr true_values) (PyVal.arr pf.predictions)) 0)

/-- `evaluate_classification_accuracy`:
`balanced_accuracy_score(true_values, pred_values)`. -/
def evaluate_classification_accuracy (env : MetricsEnv) (pf : PredFrame) (true_values : List PyVal) :
    Option ℚ :=
  some (env.balanced_accuracy_score (PyVal.arr true_values) (PyVal.arr pf.predictions))

/-- `evaluate_multilabel_accuracy`: re-encode truths and predictions with
the trained encoder fetched from the backend, then weighted F1.  A missing
backend (`None`) raises `AttributeError` immediately. -/
def evaluate_multilabel_accuracy (env : MetricsEnv) (backend : Option Backend) (pf : PredFrame)
    (true_values : List PyVal) : Option ℚ :=
  backend.map fun b =>
    env.f1_score_weighted (b.encoderEncode true_values) (b.encoderEncode pf.predictions)

/-- `evaluate_generic_accuracy`: `accuracy_score(true_values, pred_values)`. -/
def evaluate_generic_accuracy (env : MetricsEnv) (pf : PredFrame) (true_values : List PyVal) :
    Option ℚ :=
  some (env.accuracy_score (PyVal.arr true_values) (PyVal.arr pf.predictions))

/-- The loop of `evaluate_array_accuracy`: iterate over prediction rows
with a running sum; a sequence-valued truth row adds
`max(0, acc_f(predictions[i], true_values[i]))`, while the first
scalar truth row returns
`max(0, acc_f([x[0] for x in predictions], true_values))` for the whole
batch at once.  Exhausting the truths first is an `IndexError`; an empty
prediction list makes the final `accuracy / len(predictions)` divide by
zero. -/
def arrayLoop (acc_f : PyVal → PyVal → ℚ) (preds0 trues0 : List PyVal) :
    List PyVal → List PyVal → ℚ → Option ℚ
  | [], _, acc =>
    if preds0.length = 0 then none else some (acc / (preds0.length : ℚ))
  | _ :: _, [], _ => none
  | p :: ps, PyVal.arr l :: ts, acc =>
    arrayLoop acc_f preds0 trues0 ps ts (acc + max 0 (acc_f p (PyVal.arr l)))
  | _ :: _, PyVal.num _ :: _, _ =>
    (firstElems preds0).map fun fs => max 0 (acc_f (PyVal.arr fs) (PyVal.arr trues0))
  | _ :: _, PyVal.str _ :: _, _ =>
    (firstElems preds0).map fun fs => max 0 (acc_f (PyVal.arr fs) (PyVal.arr trues0))

/-- `evaluate_array_accuracy`: select balanced accuracy or R² by the
`categorical` flag, then run the row loop. -/
def evaluate_array_accuracy (env : MetricsEnv) (categorical : Bool) (pf : PredFrame)
    (true_values : List PyVal) : Option ℚ :=
  arrayLoop (if categorical then env.balanced_accuracy_score else env.r2_score)
    pf.predictions true_values pf.predictions true_values 0

/-- The final line of `evaluate_accuracy`:
`return 0.00000001 if score == 0 else score`. -/
def fixScore (score : ℚ) : ℚ :=
  if score = 0 then 1 / 100000000 else score

/-- The dispatch of `evaluate_accuracy` and the call of the selected
scorer, before the zero-replacement on the returned score. -/
def evaluate_accuracy_raw (env : MetricsEnv) (ti : TargetInfo) (pf : PredFrame)
    (true_values : List PyVal) (backend : Option Backend) : Option ℚ :=
  match ti.data_dtype with
  | dtype.integer => evaluate_regression_accuracy env pf true_values
  | dtype.float => evaluate_regression_accuracy env pf true_values
  | dtype.categorical => evaluate_classification_accuracy env pf true_values
  | dtype.tags => evaluate_multilabel_accuracy env backend pf true_values
  | dtype.array =>
    (ti.typing).bind fun m =>
      evaluate_array_accuracy env (decide (dtype.categorical ∈ m.getD [])) pf true_values
  | dtype.generic => evaluate_generic_accuracy env pf true_values

/-- `evaluate_accuracy`: dispatch on the target dtype, then replace an
exact-zero score by `0.00000001`. -/
def evaluate_accuracy (env : MetricsEnv) (ti : TargetInfo) (pf : PredFrame)
    (true_values : List PyVal) (backend : Option Backend) : Option ℚ :=
  (evaluate_accuracy_raw env ti pf true_values backend).map fixScore

/-- A concrete metrics environment (every sklearn metric returning 0),
used to instantiate universally quantified theorems. -/
def constMetrics : MetricsEnv :=
  { r2_score := fun _ _ => 0
    balanced_accuracy_score := fun _ _ => 0
    f1_score_weighted := fun _ _ => 0
    accuracy_score := fun _ _ => 0 }

/-- A concrete audio environment with one unreadable path and a fixed
2-coefficient feature matrix, used to instantiate theorems. -/
def sampleAudioEnv : AudioEnv :=
  { readAudio := fun path => if path = "bad" then none else some []
    mfcc := fun _ _ _ => [[0, 0]] }

/-! ## Lemmas about the dict model -/

theorem dictGet?_insert {κ α : Type} [DecidableEq κ] (d : List (κ × α)) (k k' : κ) (v : α) :
    dictGet? (dictInsert d k v) k' = if k' = k then some v else dictGet? d k' := by
  induction d with
  | nil =>
    simp only [dictInsert, dictGet?]
    by_cases h : k' = k
    · subst h
      simp
    · rw [if_neg (fun hc => h hc.symm), if_neg h]
  | cons p d ih =>
    by_cases h1 : p.1 = k
    · simp only [dictInsert, if_pos h1, dictGet?]
      by_cases h2 : k' = k
      · subst h2
        rw [if_pos rfl, if_pos rfl]
      · rw [if_neg (fun hc : k = k' => h2 hc.symm), if_neg h2,
          if_neg (fun hc : p.1 = k' => h2 (hc.symm.trans h1))]
    · simp only [dictInsert, if_neg h1, dictGet?, ih]
      by_cases h2 : p.1 = k'
      · rw [if_pos h2, if_neg (fun hc : k' = k => h1 (h2.trans hc)), if_pos h2]
      · by_cases h3 : k' = k
        · rw [if_neg h2, if_pos h3, if_pos h3]
        · rw [if_neg h2, if_neg h3, if_neg h3, if_neg h2]

theorem mem_dictInsert {κ α : Type} [DecidableEq κ] {q : κ × α} {d : List (κ × α)} {k : κ} {v : α}
    (h : q ∈ dictInsert d k v) : q ∈ d ∨ q = (k, v) := by
  induction d with
  | nil => simpa [dictInsert] using h
  | cons p d ih =>
    by_cases h1 : p.1 = k
    · simp only [dictInsert, if_pos h1, List.mem_cons] at h
      rcases h with h | h
      · exact Or.inr h
      · exact Or.inl (List.mem_cons_of_mem _ h)
    · simp only [dictInsert, if_neg h1, List.mem_cons] at h
      rcases h with h | h
      · exact Or.inl (h ▸ List.mem_cons_self _ _)
      · rcases ih h with h' | h'
        · exact Or.inl (List.mem_cons_of_mem _ h')
        · exact Or.inr h'

theorem self_mem_dictInsert {κ α : Type} [DecidableEq κ] (d : List (κ × α)) (k : κ) (v : α) :
    (k, v) ∈ dictInsert d k v := by
  induction d with
  | nil => simp [dictInsert]
  | cons p d ih =>
    by_cases h1 : p.1 = k
    · simp [dictInsert, if_pos h1]
    · simpa [dictInsert, if_neg h1] using Or.inr ih

theorem mem_dictInsert_of_mem {κ α : Type} [DecidableEq κ] {q : κ × α} {d : List (κ × α)}
    {k : κ} {v : α} (hq : q ∈ d) (hne : q.1 ≠ k) : q ∈ dictInsert d k v := by
  induction d with
  | nil => cases hq
  | cons p d ih =>
    rcases List.mem_cons.mp hq with h | h
    · subst h
      simp [dictInsert, if_neg hne]
    · by_cases h1 : p.1 = k
      · simpa [dictInsert, if_pos h1] using Or.inr h
      · simpa [dictInsert, if_neg h1] using Or.inr (ih h)

theorem mem_dictKeys_insert {κ α : Type} [DecidableEq κ] {a : κ} {d : List (κ × α)} {k : κ}
    {v : α} (h : a ∈ dictKeys (dictInsert d k v)) : a ∈ dictKeys d ∨ a = k := by
  simp only [dictKeys, List.mem_map] at h ⊢
  obtain ⟨q, hq, hqa⟩ := h
  rcases mem_dictInsert hq with h' | h'
  · exact Or.inl ⟨q, h', hqa⟩
  · subst h'
    exact Or.inr hqa.symm

theorem nodup_dictKeys_insert {κ α : Type} [DecidableEq κ] {d : List (κ × α)} (k : κ) (v : α)
    (h : (dictKeys d).Nodup) : (dictKeys (dictInsert d k v)).Nodup := by
  induction d with
  | nil => simp [dictInsert, dictKeys]
  | cons p d ih =>
    simp only [dictKeys, List.map_cons, List.nodup_cons] at h
    by_cases h1 : p.1 = k
    · simp only [dictInsert, if_pos h1, dictKeys, List.map_cons, List.nodup_cons]
      exact ⟨h1 ▸ h.1, h.2⟩
    · simp only [dictInsert, if_neg h1, dictKeys, List.map_cons, List.nodup_cons]
      refine ⟨fun hc => ?_, ih h.2⟩
      rcases mem_dictKeys_insert hc with hc' | hc'
      · exact h.1 hc'
      · exact h1 hc'

theorem dictGet?_insertMany_of_not_mem {κ α : Type} [DecidableEq κ] {k : κ}
    {ps : List (κ × α)} (h : k ∉ dictKeys ps) (d : List (κ × α)) :
    dictGet? (dictInsertMany d ps) k = dictGet? d k := by
  induction ps generalizing d with
  | nil => rfl
  | cons p ps ih =>
    simp only [dictKeys, List.map_cons, List.mem_cons, not_or] at h
    have step : dictInsertMany d (p :: ps) = dictInsertMany (dictInsert d p.1 p.2) ps := rfl
    rw [step, ih (by simpa [dictKeys] using h.2), dictGet?_insert, if_neg (fun hc => h.1 hc)]

theorem dictGet?_insertMany_of_mem {κ α : Type} [DecidableEq κ] {k : κ} {v : α}
    {ps : List (κ × α)} (hnd : (dictKeys ps).Nodup) (hm : (k, v) ∈ ps) (d : List (κ × α)) :
    dictGet? (dictInsertMany d ps) k = some v := by
  induction ps generalizing d with
  | nil => cases hm
  | cons p ps ih =>
    simp only [dictKeys, List.map_cons, List.nodup_cons] at hnd
    have step : dictInsertMany d (p :: ps) = dictInsertMany (dictInsert d p.1 p.2) ps := rfl
    rcases List.mem_cons.mp hm with h | h
    · subst h
      rw [step, dictGet?_insertMany_of_not_mem (by simpa [dictKeys] using hnd.1) _,
        dictGet?_insert, if_pos rfl]
    · rw [step, ih hnd.2 h]

theorem mem_dictInsertMany {κ α : Type} [DecidableEq κ] {q : κ × α} {ps d : List (κ × α)}
    (h : q ∈ dictInsertMany d ps) : q ∈ d ∨ q ∈ ps := by
  induction ps generalizing d with
  | nil => exact Or.inl h
  | cons p ps ih =>
    have step : dictInsertMany d (p :: ps) = dictInsertMany (dictInsert d p.1 p.2) ps := rfl
    rw [step] at h
    rcases ih h with h' | h'
    · rcases mem_dictInsert h' with h'' | h''
      · exact Or.inl h''
      · exact Or.inr (h'' ▸ List.mem_cons_self _ _)
    · exact Or.inr (List.mem_cons_of_mem _ h')

theorem mem_insertMany_of_mem_base {κ α : Type} [DecidableEq κ] {q : κ × α}
    {ps : List (κ × α)} (hfresh : ∀ p ∈ ps, p.1 ≠ q.1) {d : List (κ × α)} (hq : q ∈ d) :
    q ∈ dictInsertMany d ps := by
  induction ps generalizing d with
  | nil => exact hq
  | cons p ps ih =>
    have step : dictInsertMany d (p :: ps) = dictInsertMany (dictInsert d p.1 p.2) ps := rfl
    rw [step]
    exact ih (fun p' hp' => hfresh p' (List.mem_cons_of_mem _ hp'))
      (mem_dictInsert_of_mem hq fun hc => hfresh p (List.mem_cons_self _ _) hc.symm)

theorem mem_insertMany_of_mem_pairs {κ α : Type} [DecidableEq κ] {k : κ} {v : α}
    {ps : List (κ × α)} (hnd : (dictKeys ps).Nodup) (hm : (k, v) ∈ ps) (d : List (κ × α)) :
    (k, v) ∈ dictInsertMany d ps := by
  induction ps generalizing d with
  | nil => cases hm
  | cons p ps ih =>
    simp only [dictKeys, List.map_cons, List.nodup_cons] at hnd
    have step : dictInsertMany d (p :: ps) = dictInsertMany (dictInsert d p.1 p.2) ps := rfl
    rw [step]
    rcases List.mem_cons.mp hm with h | h
    · subst h
      refine mem_insertMany_of_mem_base (fun p' hp' hc => hnd.1 ?_) (self_mem_dictInsert _ _ _)
      simp only [dictKeys, List.mem_map]
      exact ⟨p', hp', hc⟩
    · exact ih hnd.2 h _

theorem nodup_dictKeys_insertMany {κ α : Type} [DecidableEq κ] {d ps : List (κ × α)}
    (h : (dictKeys d).Nodup) : (dictKeys (dictInsertMany d ps)).Nodup := by
  induction ps generalizing d with
  | nil => exact h
  | cons p ps ih => exact ih (nodup_dictKeys_insert _ _ h)

theorem dictGet?_mem {κ α : Type} [DecidableEq κ] {d : List (κ × α)} {k : κ} {v : α}
    (h : dictGet? d k = some v) : (k, v) ∈ d := by
  induction d with
  | nil => cases h
  | cons p d ih =>
    by_cases h1 : p.1 = k
    · obtain ⟨a, b⟩ := p
      have h1' : a = k := h1
      subst h1'
      have hb : b = v := by simpa [dictGet?] using h
      subst hb
      exact List.mem_cons_self _ _
    · simp only [dictGet?, if_neg h1] at h
      exact List.mem_cons_of_mem _ (ih h)

theorem dictGet?_of_mem_nodup {κ α : Type} [DecidableEq κ] {d : List (κ × α)} {k : κ} {v : α}
    (hnd : (dictKeys d).Nodup) (hm : (k, v) ∈ d) : dictGet? d k = some v := by
  induction d with
  | nil => cases hm
  | cons p d ih =>
    simp only [dictKeys, List.map_cons, List.nodup_cons] at hnd
    rcases List.mem_cons.mp hm with h | h
    · subst h
      simp [dictGet?]
    · have h1 : p.1 ≠ k := by
        intro hc
        exact hnd.1 (by
          subst hc
          simp only [dictKeys, List.mem_map]
          exact ⟨(p.1, v), h, rfl⟩)
      simpa [dictGet?, if_neg h1] using ih hnd.2 h

/-! ## Lemmas about enumeration, uniqueness and traversal -/

theorem mem_pyEnumerate_ge {α : Type} {i : Nat} {a : α} :
    ∀ {n : Nat} {l : List α}, (i, a) ∈ pyEnumerate n l → n ≤ i := by
  intro n l
  induction l generalizing n with
  | nil => intro h; cases h
  | cons x xs ih =>
    intro h
    rcases List.mem_cons.mp h with h' | h'
    · cases h'
      exact Nat.le_refl _
    · exact Nat.le_of_succ_le (ih h')

theorem snd_mem_of_mem_pyEnumerate {α : Type} {i : Nat} {a : α} :
    ∀ {n : Nat} {l : List α}, (i, a) ∈ pyEnumerate n l → a ∈ l := by
  intro n l
  induction l generalizing n with
  | nil => intro h; cases h
  | cons x xs ih =>
    intro h
    rcases List.mem_cons.mp h with h' | h'
    · cases h'
      exact List.mem_cons_self _ _
    · exact List.mem_cons_of_mem _ (ih h')

theorem exists_mem_pyEnumerate {α : Type} {a : α} {l : List α} (h : a ∈ l) (n : Nat) :
    ∃ i, (i, a) ∈ pyEnumerate n l := by
  induction l generalizing n with
  | nil => cases h
  | cons x xs ih =>
    rcases List.mem_cons.mp h with h' | h'
    · exact ⟨n, h' ▸ List.mem_cons_self _ _⟩
    · obtain ⟨i, hi⟩ := ih h' (n + 1)
      exact ⟨i, List.mem_cons_of_mem _ hi⟩

theorem pyEnumerate_functional {α : Type} {i : Nat} {a b : α} :
    ∀ {n : Nat} {l : List α}, (i, a) ∈ pyEnumerate n l → (i, b) ∈ pyEnumerate n l → a = b := by
  intro n l
  induction l generalizing n with
  | nil => intro h; cases h
  | cons x xs ih =>
    intro ha hb
    rcases List.mem_cons.mp ha with ha' | ha' <;> rcases List.mem_cons.mp hb with hb' | hb'
    · cases ha'; cases hb'; rfl
    · cases ha'
      exact absurd (mem_pyEnumerate_ge hb') (Nat.not_succ_le_self _)
    · cases hb'
      exact absurd (mem_pyEnumerate_ge ha') (Nat.not_succ_le_self _)
    · exact ih ha' hb'

theorem pyEnumerate_inj_of_nodup {α : Type} {i j : Nat} {a : α} :
    ∀ {n : Nat} {l : List α}, l.Nodup → (i, a) ∈ pyEnumerate n l → (j, a) ∈ pyEnumerate n l →
      i = j := by
  intro n l
  induction l generalizing n with
  | nil => intro _ h; cases h
  | cons x xs ih =>
    intro hnd ha hb
    rw [List.nodup_cons] at hnd
    rcases List.mem_cons.mp ha with ha' | ha' <;> rcases List.mem_cons.mp hb with hb' | hb'
    · cases ha'; cases hb'; rfl
    · cases ha'
      exact absurd (snd_mem_of_mem_pyEnumerate hb') hnd.1
    · cases hb'
      exact absurd (snd_mem_of_mem_pyEnumerate ha') hnd.1
    · exact ih hnd.2 ha' hb'

theorem map_snd_pyEnumerate {α : Type} (n : Nat) (l : List α) :
    (pyEnumerate n l).map Prod.snd = l := by
  induction l generalizing n with
  | nil => rfl
  | cons x xs ih => simp [pyEnumerate, ih]

theorem mem_uniqueSeen (a : String) :
    ∀ (l seen : List String), a ∈ uniqueSeen l seen ↔ a ∈ l ∧ a ∉ seen := by
  intro l
  induction l with
  | nil => intro seen; simp [uniqueSeen]
  | cons x xs ih =>
    intro seen
    by_cases hx : x ∈ seen
    · rw [uniqueSeen, if_pos hx, ih]
      constructor
      · exact fun h => ⟨List.mem_cons_of_mem _ h.1, h.2⟩
      · rintro ⟨h1, h2⟩
        rcases List.mem_cons.mp h1 with h | h
        · exact absurd (h ▸ hx) h2
        · exact ⟨h, h2⟩
    · rw [uniqueSeen, if_neg hx]
      by_cases hax : a = x
      · subst hax
        simp [hx]
      · constructor
        · intro h
          rcases List.mem_cons.mp h with h | h
          · exact absurd h hax
          · have h' := (ih (x :: seen)).mp h
            exact ⟨List.mem_cons_of_mem _ h'.1,
              fun hc => h'.2 (List.mem_cons_of_mem _ hc)⟩
        · rintro ⟨h1, h2⟩
          rcases List.mem_cons.mp h1 with h | h
          · exact absurd h hax
          · refine List.mem_cons_of_mem _ ((ih (x :: seen)).mpr ⟨h, fun hc => ?_⟩)
            rcases List.mem_cons.mp hc with hc' | hc'
            · exact hax hc'
            · exact h2 hc'

theorem nodup_uniqueSeen : ∀ (l seen : List String), (uniqueSeen l seen).Nodup := by
  intro l
  induction l with
  | nil => intro seen; simp [uniqueSeen]
  | cons x xs ih =>
    intro seen
    by_cases hx : x ∈ seen
    · rw [uniqueSeen, if_pos hx]
      exact ih seen
    · rw [uniqueSeen, if_neg hx, List.nodup_cons]
      exact ⟨fun hc => ((mem_uniqueSeen _ _ _).mp hc).2 (List.mem_cons_self _ _), ih _⟩

theorem mem_uniqueFirstSeen (l : List String) (a : String) :
    a ∈ uniqueFirstSeen l ↔ a ∈ l := by
  rw [uniqueFirstSeen, mem_uniqueSeen]
  simp

theorem nodup_uniqueFirstSeen (l : List String) : (uniqueFirstSeen l).Nodup :=
  nodup_uniqueSeen l []

theorem pyTraverse_some {α β : Type} (g : α → β) (l : List α) :
    pyTraverse (fun x => some (g x)) l = some (l.map g) := by
  induction l with
  | nil => rfl
  | cons x xs ih => simp [pyTraverse, ih]

theorem pyTraverse_congr {α β : Type} {f f' : α → Option β} (l : List α)
    (h : ∀ x ∈ l, f x = f' x) : pyTraverse f l = pyTraverse f' l := by
  induction l with
  | nil => rfl
  | cons x xs ih =>
    simp only [pyTraverse, h x (List.mem_cons_self _ _),
      ih fun y hy => h y (List.mem_cons_of_mem _ hy)]

theorem pyTraverse_mem_prop {α β : Type} {f : α → Option β} {P : β → Prop}
    (hf : ∀ x r, f x = some r → P r) :
    ∀ {l : List α} {out : List β}, pyTraverse f l = some out → ∀ r ∈ out, P r := by
  intro l
  induction l with
  | nil =>
    intro out h r hr
    simp only [pyTraverse, Option.some.injEq] at h
    subst h
    cases hr
  | cons x xs ih =>
    intro out h r hr
    simp only [pyTraverse] at h
    obtain ⟨y, hy, h⟩ := Option.bind_eq_some.mp h
    obtain ⟨ys, hys, h⟩ := Option.map_eq_some'.mp h
    subst h
    rcases List.mem_cons.mp hr with h' | h'
    · exact h' ▸ hf x y hy
    · exact ih hys r h'

theorem pyTraverse_map {α β γ : Type} (f : β → Option γ) (g : α → β) (l : List α) :
    pyTraverse f (l.map g) = pyTraverse (fun x => f (g x)) l := by
  induction l with
  | nil => rfl
  | cons x xs ih => simp [pyTraverse, ih]

/-! ## The label dictionary -/

theorem dictKeys_labelPairs (categories : List String) :
    dictKeys (labelPairs categories) = categories := by
  simp only [dictKeys, labelPairs, List.map_map]
  have : (Prod.fst ∘ fun p : Nat × String => (p.2, p.1 + 1)) = Prod.snd := rfl
  rw [this, map_snd_pyEnumerate]

theorem mem_labelPairs {categories : List String} {k : String} {v : Nat} :
    (k, v) ∈ labelPairs categories ↔ ∃ i, (i, k) ∈ pyEnumerate 0 categories ∧ v = i + 1 := by
  simp only [labelPairs, List.mem_map, Prod.mk.injEq]
  constructor
  · rintro ⟨⟨i, c⟩, hm, hc, hv⟩
    exact ⟨i, hc ▸ hm, hv.symm⟩
  · rintro ⟨i, hm, hv⟩
    exact ⟨(i, k), hm, rfl, hv.symm⟩

theorem lookup_labelDict_seen {priming : List String} {x : String} {i : Nat}
    (hi : (i, x) ∈ pyEnumerate 0 (uniqueFirstSeen priming)) :
    dictGet? (labelDict priming) x = some (i + 1) := by
  refine dictGet?_insertMany_of_mem ?_ (mem_labelPairs.mpr ⟨i, hi, rfl⟩) _
  rw [dictKeys_labelPairs]
  exact nodup_uniqueFirstSeen _

theorem lookup_labelDict_unseen {priming : List String} {x : String}
    (hx : x ∉ priming) :
    dictGet? (labelDict priming) x = if "Unknown" = x then some 0 else none := by
  rw [labelDict, dictGet?_insertMany_of_not_mem, dictGet?]
  · rfl
  · rw [dictKeys_labelPairs, mem_uniqueFirstSeen]
    exact hx

theorem lookup_labelDict_cases {priming : List String} {k : String} {v : Nat}
    (h : dictGet? (labelDict priming) k = some v) :
    (k = "Unknown" ∧ v = 0) ∨ ∃ i, (i, k) ∈ pyEnumerate 0 (uniqueFirstSeen priming) ∧
      v = i + 1 := by
  by_cases hk : k ∈ priming
  · obtain ⟨i, hi⟩ := exists_mem_pyEnumerate ((mem_uniqueFirstSeen _ _).mpr hk) 0
    rw [lookup_labelDict_seen hi] at h
    exact Or.inr ⟨i, hi, ((Option.some.injEq _ _).mp h).symm⟩
  · rw [lookup_labelDict_unseen hk] at h
    by_cases hu : "Unknown" = k
    · rw [if_pos hu] at h
      exact Or.inl ⟨hu.symm, ((Option.some.injEq _ _).mp h).symm⟩
    · rw [if_neg hu] at h
      cases h

theorem nodup_dictKeys_labelDict (priming : List String) :
    (dictKeys (labelDict priming)).Nodup := by
  refine nodup_dictKeys_insertMany ?_
  simp [dictKeys]

theorem labelDict_value_determines_key {priming : List String} {a b : String} {v : Nat}
    (ha : (a, v) ∈ labelDict priming) (hb : (b, v) ∈ labelDict priming) : a = b := by
  have ha' := dictGet?_of_mem_nodup (nodup_dictKeys_labelDict priming) ha
  have hb' := dictGet?_of_mem_nodup (nodup_dictKeys_labelDict priming) hb
  rcases lookup_labelDict_cases ha' with ⟨hau, hav⟩ | ⟨i, hai, hav⟩ <;>
    rcases lookup_labelDict_cases hb' with ⟨hbu, hbv⟩ | ⟨j, hbj, hbv⟩
  · exact hau.trans hbu.symm
  · omega
  · omega
  · have hij : i = j := by omega
    exact pyEnumerate_functional hai (hij ▸ hbj)

theorem pairwise_snd_ne_labelDict (priming : List String) :
    (labelDict priming).Pairwise fun q r => q.2 ≠ r.2 := by
  have hp : (labelDict priming).Pairwise fun q r => q.1 ≠ r.1 :=
    List.pairwise_map.mp (nodup_dictKeys_labelDict priming)
  refine hp.imp_of_mem fun {q r} hq hr h1 hv => h1 ?_
  obtain ⟨a, v⟩ := q
  obtain ⟨b, w⟩ := r
  simp only at hv ⊢
  subst hv
  exact labelDict_value_determines_key hq hr

theorem nodup_dictKeys_swapped (priming : List String) :
    (dictKeys ((labelDict priming).map fun p => (p.2, p.1))).Nodup :=
  List.pairwise_map.mpr (List.pairwise_map.mpr (pairwise_snd_ne_labelDict priming))

theorem mem_labelDict_of_enum {priming : List String} {x : String} {i : Nat}
    (hi : (i, x) ∈ pyEnumerate 0 (uniqueFirstSeen priming)) :
    (x, i + 1) ∈ labelDict priming := by
  refine mem_insertMany_of_mem_pairs ?_ (mem_labelPairs.mpr ⟨i, hi, rfl⟩) _
  rw [dictKeys_labelPairs]
  exact nodup_uniqueFirstSeen _

theorem lookup_ilabelDict_of_enum {priming : List String} {x : String} {i : Nat}
    (hi : (i, x) ∈ pyEnumerate 0 (uniqueFirstSeen priming)) :
    dictGet? (ilabelDict priming) (i + 1) = some x := by
  refine dictGet?_insertMany_of_mem (nodup_dictKeys_swapped priming) ?_ _
  exact List.mem_map.mpr ⟨(x, i + 1), mem_labelDict_of_enum hi, rfl⟩

theorem lookup_ilabelDict_zero {priming : List String} (hu : "Unknown" ∉ priming) :
    dictGet? (ilabelDict priming) 0 = some "Unknown" := by
  refine dictGet?_insertMany_of_mem (nodup_dictKeys_swapped priming) ?_ _
  have hm : ("Unknown", 0) ∈ labelDict priming := by
    refine mem_insertMany_of_mem_base ?_ (List.mem_cons_self _ _)
    intro p hp hc
    have hmem : p.1 ∈ uniqueFirstSeen priming := by
      rw [← dictKeys_labelPairs (uniqueFirstSeen priming)]
      exact List.mem_map.mpr ⟨p, hp, rfl⟩
    have hc' : p.1 = "Unknown" := hc
    exact hu ((mem_uniqueFirstSeen _ _).mp (hc' ▸ hmem))
  exact List.mem_map.mpr ⟨("Unknown", 0), hm, rfl⟩

theorem encode_prepared (t : Bool) (priming data : List String) :
    LabelEncoder.encode (LabelEncoder.prepare (LabelEncoder.init t) priming) data =
      some (data.map fun x => [dictGetD (labelDict priming) x 0]) :=
  pyTraverse_some _ data

theorem pyTraverse_singleton {α β : Type} (f : α → Option β) (x : α) :
    pyTraverse f [x] = (f x).bind fun y => some [y] := by
  cases h : f x <;> simp [pyTraverse, h]

theorem decode_prepared_single (t : Bool) (priming : List String) (n : Nat) :
    LabelEncoder.decode (LabelEncoder.prepare (LabelEncoder.init t) priming) [[n]] =
      (dictGet? (ilabelDict priming) n).bind fun s => some [s] := by
  simp only [LabelEncoder.decode]
  rw [pyTraverse_singleton]
  rfl

/-! ## Claims -/

/-- C1 (amended): after `prepare` on a training column, decoding the
encoding of any value seen during `prepare` recovers that value, and any
unseen value encodes to index 0; provided the literal string "Unknown"
does not occur among the training values, decoding index 0 yields the
literal "Unknown". -/
theorem C1_label_roundtrip :
    (∀ (t : Bool) (priming : List String) (x : String), x ∈ priming →
      ∀ enc,
        LabelEncoder.encode (LabelEncoder.prepare (LabelEncoder.init t) priming) [x] =
          some enc →
        LabelEncoder.decode (LabelEncoder.prepare (LabelEncoder.init t) priming) enc =
          some [x]) ∧
    (∀ (t : Bool) (priming : List String) (x : String), x ∉ priming →
      LabelEncoder.encode (LabelEncoder.prepare (LabelEncoder.init t) priming) [x] =
        some [[0]]) ∧
    (∀ (t : Bool) (priming : List String), "Unknown" ∉ priming →
      LabelEncoder.decode (LabelEncoder.prepare (LabelEncoder.init t) priming) [[0]] =
        some ["Unknown"]) := by
  refine ⟨?_, ?_, ?_⟩
  · intro t priming x hx enc henc
    obtain ⟨i, hi⟩ := exists_mem_pyEnumerate ((mem_uniqueFirstSeen _ _).mpr hx) 0
    rw [encode_prepared] at henc
    have henc' : enc = [[dictGetD (labelDict priming) x 0]] :=
      ((Option.some.injEq _ _).mp henc).symm
    subst henc'
    have hget : dictGetD (labelDict priming) x 0 = i + 1 := by
      rw [dictGetD, lookup_labelDict_seen hi]
      rfl
    rw [hget, decode_prepared_single, lookup_ilabelDict_of_enum hi]
    rfl
  · intro t priming x hx
    rw [encode_prepared]
    have hget : dictGetD (labelDict priming) x 0 = 0 := by
      rw [dictGetD, lookup_labelDict_unseen hx]
      by_cases h : "Unknown" = x
      · rw [if_pos h]
        rfl
      · rw [if_neg h]
        rfl
    simp [hget]
  · intro t priming hu
    rw [decode_prepared_single, lookup_ilabelDict_zero hu]
    rfl

/-- C1 counterexample: the claim as stated fails when the literal string
"Unknown" occurs in the training column.  Preparing on `["Unknown"]`
overwrites the reserved binding, so index 0 is no longer mapped and
`decode` of index 0 raises `KeyError` instead of yielding "Unknown". -/
theorem C1_counterexample :
    LabelEncoder.decode (LabelEncoder.prepare (LabelEncoder.init false) ["Unknown"]) [[0]] =
      none := by
  decide

/-- C1 witness: a concrete instantiation of the amended round-trip claim
on the training column `["a", "b"]`. -/
theorem C1_label_roundtrip_witness :
    LabelEncoder.decode (LabelEncoder.prepare (LabelEncoder.init false) ["a", "b"]) [[1]] =
      some ["a"] ∧
    LabelEncoder.encode (LabelEncoder.prepare (LabelEncoder.init false) ["a", "b"]) ["c"] =
      some [[0]] ∧
    LabelEncoder.decode (LabelEncoder.prepare (LabelEncoder.init false) ["a", "b"]) [[0]] =
      some ["Unknown"] :=
  ⟨C1_label_roundtrip.1 false ["a", "b"] "a" (by decide) [[1]] (by decide),
   C1_label_roundtrip.2.1 false ["a", "b"] "c" (by decide),
   C1_label_roundtrip.2.2 false ["a", "b"] (by decide)⟩

/-- C8: after `prepare`, the label dictionary maps no two distinct
categories to the same non-zero index, every category from the training
data gets a non-zero index, only the key "Unknown" can map to index 0,
and the prepared encoder stores exactly this dictionary. -/
theorem C8_label_bijection :
    (∀ (priming : List String) (k1 k2 : String) (v1 v2 : Nat),
      dictGet? (labelDict priming) k1 = some v1 →
      dictGet? (labelDict priming) k2 = some v2 →
      k1 ≠ k2 → v1 ≠ 0 → v1 ≠ v2) ∧
    (∀ (priming : List String) (cat : String), cat ∈ priming →
      ∀ v, dictGet? (labelDict priming) cat = some v → v ≠ 0) ∧
    (∀ (priming : List String) (k : String),
      dictGet? (labelDict priming) k = some 0 → k = "Unknown") ∧
    (∀ (t : Bool) (priming : List String),
      (LabelEncoder.prepare (LabelEncoder.init t) priming).label_dict =
        some (labelDict priming)) := by
  refine ⟨?_, ?_, ?_, fun t priming => rfl⟩
  · intro priming k1 k2 v1 v2 h1 h2 hk hv1 hveq
    subst hveq
    rcases lookup_labelDict_cases h1 with ⟨hu1, hz1⟩ | ⟨i, hi, hzi⟩
    · exact hv1 hz1
    · rcases lookup_labelDict_cases h2 with ⟨hu2, hz2⟩ | ⟨j, hj, hzj⟩
      · omega
      · have hij : i = j := by omega
        exact hk (pyEnumerate_functional hi (hij ▸ hj))
  · intro priming cat hcat v hv
    obtain ⟨i, hi⟩ := exists_mem_pyEnumerate ((mem_uniqueFirstSeen _ _).mpr hcat) 0
    rw [lookup_labelDict_seen hi] at hv
    have : i + 1 = v := (Option.some.injEq _ _).mp hv
    omega
  · intro priming k hk
    rcases lookup_labelDict_cases hk with ⟨hu, _⟩ | ⟨i, _, hzi⟩
    · exact hu
    · omega

/-- C8 witness: concrete bijection facts on the training column
`["a", "b"]`, obtained by instantiating the bijection theorem. -/
theorem C8_label_bijection_witness :
    dictGet? (labelDict ["a", "b"]) "a" = some 1 ∧ (1 : Nat) ≠ 2 ∧ (2 : Nat) ≠ 0 :=
  ⟨by decide,
   C8_label_bijection.1 ["a", "b"] "a" "b" 1 2 (by decide) (by decide) (by decide) (by decide),
   C8_label_bijection.2.1 ["a", "b"] "b" (by decide) 2 (by decide)⟩

/-- C7 counterexample: the precondition failure is not enforced by the
`is_prepared` flag.  On a state whose flag is false but whose label
dictionary is present, `encode` succeeds, so the flag itself prevents
nothing; only the missing dictionary attributes cause the failure. -/
theorem C7_counterexample :
    LabelEncoder.encode
        { is_target := false, is_prepared := false, output_size := 1,
          label_dict := some [("a", 1)], ilabel_dict := some [(1, "a")] } ["a"] =
      some [[1]] ∧
    ({ is_target := false, is_prepared := false, output_size := 1,
       label_dict := some [("a", 1)], ilabel_dict := some [(1, "a")] } :
      LabelEncoder).is_prepared = false := by
  constructor <;> decide

/-- C7 (amended): calling `encode` or `decode` before `prepare` (i.e. on
the freshly initialised encoder) with a nonempty input fails immediately,
because the label dictionaries are missing; the `is_prepared` flag is set
by `prepare` but is never consulted by `encode` or `decode` (their result
is invariant under the flag). -/
theorem C7_unprepared_fails :
    (∀ (t : Bool) (data : List String), data ≠ [] →
      LabelEncoder.encode (LabelEncoder.init t) data = none) ∧
    (∀ (t : Bool) (enc : List (List Nat)), enc ≠ [] →
      LabelEncoder.decode (LabelEncoder.init t) enc = none) ∧
    (∀ (st : LabelEncoder) (b : Bool) (data : List String),
      LabelEncoder.encode { st with is_prepared := b } data =
        LabelEncoder.encode st data) ∧
    (∀ (st : LabelEncoder) (b : Bool) (enc : List (List Nat)),
      LabelEncoder.decode { st with is_prepared := b } enc =
        LabelEncoder.decode st enc) := by
  refine ⟨?_, ?_, fun st b data => rfl, fun st b enc => rfl⟩
  · intro t data hne
    match data with
    | [] => exact absurd rfl hne
    | x :: xs => rfl
  · intro t enc hne
    match enc with
    | [] => exact absurd rfl hne
    | row :: rows =>
      match row with
      | [] => rfl
      | [i] => rfl
      | i :: j :: rest => rfl

/-- C7 witness: the amended precondition-failure claim instantiated on a
fresh encoder with concrete nonempty inputs. -/
theorem C7_unprepared_fails_witness :
    LabelEncoder.encode (LabelEncoder.init false) ["a"] = none ∧
    LabelEncoder.decode (LabelEncoder.init false) [[0]] = none :=
  ⟨C7_unprepared_fails.1 false ["a"] (by decide),
   C7_unprepared_fails.2.1 false [[0]] (by decide)⟩

/-- C10: on a prepared label encoder, `encode` and `decode` leave every
attribute of the encoder state unchanged (their method bodies perform no
assignment, so the state they pass on is the input state). -/
theorem C10_frame :
    ∀ (st : LabelEncoder), st.is_prepared = true →
      (∀ data, (LabelEncoder.encodeS st data).1.is_target = st.is_target ∧
        (LabelEncoder.encodeS st data).1.is_prepared = st.is_prepared ∧
        (LabelEncoder.encodeS st data).1.output_size = st.output_size ∧
        (LabelEncoder.encodeS st data).1.label_dict = st.label_dict ∧
        (LabelEncoder.encodeS st data).1.ilabel_dict = st.ilabel_dict) ∧
      (∀ enc, (LabelEncoder.decodeS st enc).1.is_target = st.is_target ∧
        (LabelEncoder.decodeS st enc).1.is_prepared = st.is_prepared ∧
        (LabelEncoder.decodeS st enc).1.output_size = st.output_size ∧
        (LabelEncoder.decodeS st enc).1.label_dict = st.label_dict ∧
        (LabelEncoder.decodeS st enc).1.ilabel_dict = st.ilabel_dict) :=
  fun _ _ =>
    ⟨fun _ => ⟨rfl, rfl, rfl, rfl, rfl⟩, fun _ => ⟨rfl, rfl, rfl, rfl, rfl⟩⟩

/-- C10 witness: the frame property instantiated on a concretely prepared
encoder. -/
theorem C10_frame_witness :
    (LabelEncoder.encodeS (LabelEncoder.prepare (LabelEncoder.init false) ["a"]) ["a"]).1.label_dict =
      (LabelEncoder.prepare (LabelEncoder.init false) ["a"]).label_dict ∧
    (LabelEncoder.decodeS (LabelEncoder.prepare (LabelEncoder.init false) ["a"]) [[1]]).1.ilabel_dict =
      (LabelEncoder.prepare (LabelEncoder.init false) ["a"]).ilabel_dict :=
  ⟨((C10_frame (LabelEncoder.prepare (LabelEncoder.init false) ["a"]) rfl).1 ["a"]).2.2.2.1,
   ((C10_frame (LabelEncoder.prepare (LabelEncoder.init false) ["a"]) rfl).2 [[1]]).2.2.2.2⟩

theorem zip_map_self {α β : Type} (g : α → β) :
    ∀ (l : List α) (pr : α × β), pr ∈ l.zip (l.map g) → pr.2 = g pr.1 := by
  intro l
  induction l with
  | nil => intro pr h; cases h
  | cons x xs ih =>
    intro pr h
    simp only [List.map_cons, List.zip_cons_cons, List.mem_cons] at h
    rcases h with h' | h'
    · subst h'
      rfl
    · exact ih pr h'

theorem torchTensor2D_eq_some {rows out : List (List ℚ)}
    (h : torchTensor2D rows = some out) : out = rows := by
  match rows with
  | [] => simpa [torchTensor2D] using h.symm
  | r :: rs =>
    rw [torchTensor2D] at h
    by_cases hc : (rs.all fun s => decide (s.length = r.length)) = true
    · rw [if_pos hc] at h
      exact ((Option.some.injEq _ _).mp h).symm
    · rw [if_neg hc] at h
      cases h

theorem torchTensor2D_of_const (sz : Nat) {rows : List (List ℚ)}
    (h : ∀ r ∈ rows, r.length = sz) : torchTensor2D rows = some rows := by
  match rows with
  | [] => rfl
  | r :: rs =>
    rw [torchTensor2D, if_pos]
    simp only [List.all_eq_true, decide_eq_true_eq]
    intro s hs
    rw [h s (List.mem_cons_of_mem _ hs), h r (List.mem_cons_self _ _)]

/-- C3: every row of an `encode` result has exactly `output_size`
elements, for both encoder variants.  For the label encoder, each row is
the singleton label and `output_size` stays 1 through `prepare`.  For the
audio encoder, under the assumption that the external MFCC extraction
yields vectors of one fixed length (the spec's model of librosa with a
fixed segment and coefficient count), `prepare` establishes exactly that
length as `output_size`, and every later row — error-substituted rows
included — has that length. -/
theorem C3_output_width :
    (∀ (t : Bool) (priming data : List String) (out : List (List Nat)),
      LabelEncoder.encode (LabelEncoder.prepare (LabelEncoder.init t) priming) data =
        some out →
      (LabelEncoder.prepare (LabelEncoder.init t) priming).output_size =
        (LabelEncoder.init t).output_size ∧
      (LabelEncoder.prepare (LabelEncoder.init t) priming).output_size = 1 ∧
      ∀ row ∈ out,
        row.length = (LabelEncoder.prepare (LabelEncoder.init t) priming).output_size) ∧
    (∀ (env : AudioEnv) (priming : List String) (sz : Nat) (st1 : MFCCEncoder),
      (∀ y, (MFCCEncoder.encodeRow env y).length = sz) →
      MFCCEncoder.prepare env MFCCEncoder.init priming = some st1 →
      st1.output_size = some sz ∧
      ∀ (data : List String) (out : List (List ℚ)),
        MFCCEncoder.encode env st1 data = some out → ∀ row ∈ out, row.length = sz) := by
  constructor
  · intro t priming data out henc
    rw [encode_prepared] at henc
    have hout : out = data.map fun x => [dictGetD (labelDict priming) x 0] :=
      ((Option.some.injEq _ _).mp henc).symm
    subst hout
    refine ⟨rfl, rfl, ?_⟩
    intro row hrow
    obtain ⟨x, _, hx⟩ := List.mem_map.mp hrow
    rw [← hx]
    rfl
  · intro env priming sz st1 hc hp
    match priming with
    | [] => cases hp
    | p :: rest =>
      rw [MFCCEncoder.prepare, MFCCEncoder.encode, pyTraverse_singleton] at hp
      cases hr : env.readAudio p with
      | none =>
        rw [hr] at hp
        cases hp
      | some y =>
        rw [hr] at hp
        have hst1 : st1 = ⟨true, some (MFCCEncoder.encodeRow env y).length⟩ := by
          simpa [torchTensor2D] using hp.symm
        have hsz : st1.output_size = some sz := by
          rw [hst1]
          simp [hc y]
        refine ⟨hsz, ?_⟩
        intro data out henc
        simp only [MFCCEncoder.encode] at henc
        obtain ⟨trows, htrows, htt⟩ := Option.bind_eq_some.mp henc
        have hout : out = trows := torchTensor2D_eq_some htt
        subst hout
        have hf : ∀ (x : String) (r : List ℚ),
            (match env.readAudio x with
              | some y => some (MFCCEncoder.encodeRow env y)
              | none => st1.output_size.map fun n => List.replicate n (0 : ℚ)) = some r →
            r.length = sz := by
          intro x r hx
          cases hrx : env.readAudio x with
          | none =>
            rw [hrx, hsz] at hx
            have hxr : r = List.replicate sz (0 : ℚ) := by simpa using hx.symm
            rw [hxr]
            exact List.length_replicate _ _
          | some y' =>
            rw [hrx] at hx
            have hxr : r = MFCCEncoder.encodeRow env y' := by simpa using hx.symm
            rw [hxr]
            exact hc y'
        exact pyTraverse_mem_prop hf htrows

/-- C3 witness: the width invariant instantiated on a label encoder
prepared with `["a"]` and encoding `["a", "b"]`, and on a concrete audio
environment whose extraction always yields 2 coefficients. -/
theorem C3_output_width_witness :
    (∀ row ∈ [[(1 : Nat)], [0]],
      row.length = (LabelEncoder.prepare (LabelEncoder.init false) ["a"]).output_size) ∧
    ({ is_prepared := true, output_size := some 2 } : MFCCEncoder).output_size = some 2 :=
  ⟨(C3_output_width.1 false ["a"] ["a", "b"] [[1], [0]] (by decide)).2.2,
   (C3_output_width.2 sampleAudioEnv ["ok"] 2
      { is_prepared := true, output_size := some 2 } (fun y => rfl) (by decide)).1⟩

/-- C6: after `prepare`, under the spec's model of the external librosa
extraction (every feature vector has the established fixed width, so the
final `torch.Tensor` conversion sees equal-width rows), `encode` on any
batch never raises: it returns one row per input, rows whose read fails
are the zero vector of length `output_size`, and rows whose read succeeds
are the MFCC feature vector of the decoded waveform. -/
theorem C6_audio_error_rows :
    ∀ (env : AudioEnv) (sz : Nat) (b : Bool) (data : List String),
      (∀ y, (MFCCEncoder.encodeRow env y).length = sz) →
      ∃ out,
        MFCCEncoder.encode env { is_prepared := b, output_size := some sz } data =
          some out ∧
        out.length = data.length ∧
        ∀ pr ∈ data.zip out,
          (env.readAudio pr.1 = none →
            pr.2 = List.replicate sz (0 : ℚ) ∧ pr.2.length = sz) ∧
          (∀ y, env.readAudio pr.1 = some y → pr.2 = MFCCEncoder.encodeRow env y) := by
  intro env sz b data hc
  refine ⟨data.map fun path =>
    match env.readAudio path with
    | some y => MFCCEncoder.encodeRow env y
    | none => List.replicate sz (0 : ℚ), ?_, by simp, ?_⟩
  · rw [MFCCEncoder.encode]
    have hfun : ∀ x ∈ data,
        (match env.readAudio x with
          | some y => some (MFCCEncoder.encodeRow env y)
          | none =>
            ({ is_prepared := b, output_size := some sz } : MFCCEncoder).output_size.map
              fun n => List.replicate n (0 : ℚ)) =
        some (match env.readAudio x with
          | some y => MFCCEncoder.encodeRow env y
          | none => List.replicate sz (0 : ℚ)) := by
      intro x _
      cases h : env.readAudio x <;> simp [h]
    rw [pyTraverse_congr data hfun, pyTraverse_some]
    refine torchTensor2D_of_const sz ?_
    intro r hr
    obtain ⟨x, _, hgx⟩ := List.mem_map.mp hr
    rw [← hgx]
    cases h : env.readAudio x
    · exact List.length_replicate _ _
    · exact hc _
  · intro pr hpr
    have h2 := zip_map_self _ data pr hpr
    constructor
    · intro hn
      rw [h2, hn]
      exact ⟨rfl, List.length_replicate _ _⟩
    · intro y hy
      rw [h2, hy]

/-- C6 witness: the error-absorption property instantiated on a concrete
environment with an unreadable path `"bad"` and a readable path, whose
extraction always yields 2 coefficients. -/
theorem C6_audio_error_rows_witness :
    ∃ out,
      MFCCEncoder.encode sampleAudioEnv { is_prepared := true, output_size := some 2 }
          ["bad", "ok"] = some out ∧
      out.length = (["bad", "ok"] : List String).length ∧
      ∀ pr ∈ (["bad", "ok"] : List String).zip out,
        (sampleAudioEnv.readAudio pr.1 = none →
          pr.2 = List.replicate 2 (0 : ℚ) ∧ pr.2.length = 2) ∧
        (∀ y, sampleAudioEnv.readAudio pr.1 = some y →
          pr.2 = MFCCEncoder.encodeRow sampleAudioEnv y) :=
  C6_audio_error_rows sampleAudioEnv 2 true ["bad", "ok"] (fun _ => rfl)

theorem pyTraverse_asNum_map_num (qs : List ℚ) :
    pyTraverse PyVal.asNum (qs.map PyVal.num) = some qs := by
  induction qs with
  | nil => rfl
  | cons q qs ih => simp [pyTraverse, PyVal.asNum, ih]

/-- C2: whenever `evaluate_accuracy` returns a score, that score is never
exactly 0: an underlying score of 0 is replaced by `0.00000001`, and any
other underlying score is returned unchanged. -/
theorem C2_epsilon_floor :
    ∀ (env : MetricsEnv) (ti : TargetInfo) (pf : PredFrame) (true_values : List PyVal)
      (backend : Option Backend) (s : ℚ),
      evaluate_accuracy env ti pf true_values backend = some s →
      s ≠ 0 ∧ ∃ raw, evaluate_accuracy_raw env ti pf true_values backend = some raw ∧
        (raw = 0 → s = 1 / 100000000) ∧ (raw ≠ 0 → s = raw) := by
  intro env ti pf trues backend s hs
  rw [evaluate_accuracy] at hs
  obtain ⟨raw, hraw, hfix⟩ := Option.map_eq_some'.mp hs
  refine ⟨?_, raw, hraw, ?_, ?_⟩
  · rw [← hfix, fixScore]
    by_cases h : raw = 0
    · rw [if_pos h]
      norm_num
    · rw [if_neg h]
      exact h
  · intro h
    rw [← hfix, fixScore, if_pos h]
  · intro h
    rw [← hfix, fixScore, if_neg h]

/-- C2 witness: on a generic-typed target whose metric computes exactly
0, the returned score is the epsilon `1 / 100000000`. -/
theorem C2_epsilon_floor_witness :
    (1 : ℚ) / 100000000 ≠ 0 ∧ ∃ raw,
      evaluate_accuracy_raw constMetrics ⟨dtype.generic, none⟩ ⟨[], none⟩ [] none =
        some raw ∧
      (raw = 0 → (1 : ℚ) / 100000000 = 1 / 100000000) ∧
      (raw ≠ 0 → (1 : ℚ) / 100000000 = raw) :=
  C2_epsilon_floor constMetrics ⟨dtype.generic, none⟩ ⟨[], none⟩ [] none
    (1 / 100000000)
    (by norm_num [evaluate_accuracy, evaluate_accuracy_raw, evaluate_generic_accuracy,
      constMetrics, fixScore])

/-- C5: regression scoring.  With a confidence-range column the score is
the fraction of rows whose ground truth lies inside its own
`[lower, upper]` range; without one it is `max(R², 0)`, hence never
negative. -/
theorem C5_regression_scoring :
    (∀ (env : MetricsEnv) (qs : List ℚ) (ranges : List (ℚ × ℚ)) (preds : List PyVal),
      qs.length = ranges.length → ranges ≠ [] →
      evaluate_regression_accuracy env ⟨preds, some ranges⟩ (qs.map PyVal.num) =
        some ((((qs.zip ranges).filter fun yr =>
          decide (yr.2.1 ≤ yr.1 ∧ yr.1 ≤ yr.2.2)).length : ℚ) / (ranges.length : ℚ))) ∧
    (∀ (env : MetricsEnv) (pf : PredFrame) (true_values : List PyVal),
      pf.confidence_range = none →
      evaluate_regression_accuracy env pf true_values =
        some (max (env.r2_score (PyVal.arr true_values) (PyVal.arr pf.predictions)) 0) ∧
      (0 : ℚ) ≤ max (env.r2_score (PyVal.arr true_values) (PyVal.arr pf.predictions)) 0) := by
  constructor
  · intro env qs ranges preds hlen hne
    have hlz : ranges.length ≠ 0 := fun hc => hne (List.length_eq_zero.mp hc)
    simp only [evaluate_regression_accuracy, pyTraverse_asNum_map_num, Option.some_bind,
      if_pos hlen, if_neg hlz, List.countP_eq_length_filter]
  · intro env pf trues h
    rw [evaluate_regression_accuracy, h]
    exact ⟨rfl, le_max_right _ _⟩

/-- C5 witness: the spec's own example — truths `[1, 2, 3]` against
ranges `[[0,2], [0,1], [0,5]]` score `2/3`. -/
theorem C5_regression_scoring_witness :
    evaluate_regression_accuracy constMetrics ⟨[], some [(0, 2), (0, 1), (0, 5)]⟩
        (([1, 2, 3] : List ℚ).map PyVal.num) = some (2 / 3) := by
  rw [C5_regression_scoring.1 constMetrics [1, 2, 3] [(0, 2), (0, 1), (0, 5)] []
    (by decide) (by decide)]
  norm_num [List.zip, List.zipWith, List.filter_cons]

/-- C9: requesting multilabel scoring without a backend handle, or array
scoring on target metadata without the `typing` attribute, makes
`evaluate_accuracy` fail (raise) instead of returning a default score. -/
theorem C9_missing_collaborator :
    (∀ (env : MetricsEnv) (ti : TargetInfo) (pf : PredFrame) (true_values : List PyVal),
      ti.data_dtype = dtype.tags →
      evaluate_accuracy env ti pf true_values none = none) ∧
    (∀ (env : MetricsEnv) (ti : TargetInfo) (pf : PredFrame) (true_values : List PyVal)
      (backend : Option Backend),
      ti.data_dtype = dtype.array → ti.typing = none →
      evaluate_accuracy env ti pf true_values backend = none) := by
  constructor
  · intro env ti pf trues hd
    simp [evaluate_accuracy, evaluate_accuracy_raw, hd, evaluate_multilabel_accuracy]
  · intro env ti pf trues backend hd ht
    simp [evaluate_accuracy, evaluate_accuracy_raw, hd, ht]

/-- C9 witness: the two failure modes on concrete inputs. -/
theorem C9_missing_collaborator_witness :
    evaluate_accuracy constMetrics ⟨dtype.tags, none⟩ ⟨[], none⟩ [] none = none ∧
    evaluate_accuracy constMetrics ⟨dtype.array, none⟩ ⟨[], none⟩ [] none = none :=
  ⟨C9_missing_collaborator.1 constMetrics ⟨dtype.tags, none⟩ ⟨[], none⟩ [] rfl,
   C9_missing_collaborator.2 constMetrics ⟨dtype.array, none⟩ ⟨[], none⟩ [] none rfl rfl⟩

theorem arrayLoop_all_arr (f : PyVal → PyVal → ℚ) (preds0 trues0 : List PyVal) :
    ∀ (ps : List PyVal) (ts : List (List PyVal)) (acc : ℚ), ps.length = ts.length →
      arrayLoop f preds0 trues0 ps (ts.map PyVal.arr) acc =
        if preds0.length = 0 then none
        else some ((acc + ((ps.zip (ts.map PyVal.arr)).map
          fun pt => max 0 (f pt.1 pt.2)).sum) / (preds0.length : ℚ)) := by
  intro ps
  induction ps with
  | nil =>
    intro ts acc hlen
    have hts : ts = [] := by
      cases ts with
      | nil => rfl
      | cons t ts' => cases hlen
    subst hts
    simp [arrayLoop]
  | cons p ps ih =>
    intro ts acc hlen
    cases ts with
    | nil => cases hlen
    | cons t ts' =>
      simp only [List.map_cons, arrayLoop]
      rw [ih ts' (acc + max 0 (f p (PyVal.arr t))) (by simpa using hlen)]
      by_cases h0 : preds0.length = 0
      · rw [if_pos h0, if_pos h0]
      · rw [if_neg h0, if_neg h0]
        simp only [List.map_cons, List.zip_cons_cons, List.sum_cons]
        rw [add_assoc]

/-- C4: array scoring.  When every ground-truth row is itself a sequence,
the score is the per-row metric value floored at 0 and averaged over all
rows; when the ground-truth rows are scalars, the selected metric is
instead applied once, to the first predicted element of every row against
the whole list of scalar truths, floored at 0.  The metric is balanced
accuracy when the column is categorical-typed and R² otherwise. -/
theorem C4_array_scoring :
    (∀ (env : MetricsEnv) (cat : Bool) (pf : PredFrame) (true_values : List PyVal),
      pf.predictions ≠ [] → true_values ≠ [] →
      (∀ tv ∈ true_values, ∀ l, tv ≠ PyVal.arr l) →
      evaluate_array_accuracy env cat pf true_values =
        (firstElems pf.predictions).map fun fs =>
          max 0 ((if cat then env.balanced_accuracy_score else env.r2_score)
            (PyVal.arr fs) (PyVal.arr true_values))) ∧
    (∀ (env : MetricsEnv) (cat : Bool) (pf : PredFrame) (truerows : List (List PyVal)),
      pf.predictions ≠ [] → pf.predictions.length = truerows.length →
      evaluate_array_accuracy env cat pf (truerows.map PyVal.arr) =
        some (((pf.predictions.zip (truerows.map PyVal.arr)).map fun pt =>
          max 0 ((if cat then env.balanced_accuracy_score else env.r2_score)
            pt.1 pt.2)).sum / (pf.predictions.length : ℚ))) := by
  constructor
  · intro env cat pf trues hp ht htv
    obtain ⟨preds, confr⟩ := pf
    cases preds with
    | nil => exact absurd rfl hp
    | cons p ps =>
      cases trues with
      | nil => exact absurd rfl ht
      | cons t ts =>
        cases t with
        | arr l => exact absurd rfl (htv (PyVal.arr l) (List.mem_cons_self _ _) l)
        | num q => simp [evaluate_array_accuracy, arrayLoop]
        | str s => simp [evaluate_array_accuracy, arrayLoop]
  · intro env cat pf truerows hp hlen
    rw [evaluate_array_accuracy,
      arrayLoop_all_arr _ pf.predictions (truerows.map PyVal.arr) pf.predictions truerows 0 hlen,
      if_neg (fun hc => hp (List.length_eq_zero.mp hc)), zero_add]

/-- C4 witness: the spec's scalar-truths example — predictions
`[[5, 9], [1, 6]]` against scalar truths `[5, 6]` score the first
predicted elements as one batch (here the constant metric yields 0). -/
theorem C4_array_scoring_witness :
    evaluate_array_accuracy constMetrics false
        ⟨[PyVal.arr [PyVal.num 5, PyVal.num 9], PyVal.arr [PyVal.num 1, PyVal.num 6]], none⟩
        [PyVal.num 5, PyVal.num 6] = some 0 :=
  (C4_array_scoring.1 constMetrics false
    ⟨[PyVal.arr [PyVal.num 5, PyVal.num 9], PyVal.arr [PyVal.num 1, PyVal.num 6]], none⟩
    [PyVal.num 5, PyVal.num 6]
    (List.cons_ne_nil _ _) (List.cons_ne_nil _ _)
    (by
      intro tv htv l
      simp only [List.mem_cons, List.not_mem_nil, or_false] at htv
      rcases htv with rfl | rfl <;> nofun)).trans (by decide)

end Lightwood
